import Mathlib

/-! Verification of the stream framing and extraction pipeline of the modi-app
repository (Python sources under app/src/main/python/).

Byte buffers are modelled as lists of naturals; each Python function of the
slice is translated into an executable Lean definition, and the properties of
the specification are proved (or refuted) about those definitions. -/

namespace ModiApp

/-- Frame delimiter byte 0x7e used by the HDLC extractor (qmdl_reader.py). -/
def HDLC_DELIM : Nat := 0x7e

/-- Positions of the delimiter byte within a buffer, in increasing order.
Embeds the scanning while-loop of QmdlReader._extract_hdlc_packets
(qmdl_reader.py lines 32-37): every index i with buf[i] == 0x7e is collected,
front to back. -/
def delimPositions : List Nat → List Nat
  | [] => []
  | b :: bs =>
    if b = HDLC_DELIM then 0 :: (delimPositions bs).map (fun i => i + 1)
    else (delimPositions bs).map (fun i => i + 1)

/-- Python slice buf[s:e] for natural indices. -/
def pySlice (buf : List Nat) (s e : Nat) : List Nat := (buf.take e).drop s

/-- Size window test 3 <= len(packet) <= 8192 (qmdl_reader.py line 52 and 68). -/
def sizeOK (p : List Nat) : Bool := decide (3 ≤ p.length ∧ p.length ≤ 8192)

/-- Primary extraction path of QmdlReader._extract_hdlc_packets
(qmdl_reader.py lines 27-61, the try branch): collect all delimiter
positions; with fewer than two delimiters return no packets and the whole
buffer; otherwise slice the bytes strictly between each adjacent pair of
delimiter positions, keep the slices passing the size window, and return the
suffix of the buffer from the last delimiter position as the remaining
buffer. -/
def extract_hdlc_packets (buf : List Nat) : List (List Nat) × List Nat :=
  let frame_starts := delimPositions buf
  if frame_starts.length < 2 then
    ([], buf)
  else
    let complete_packets := (frame_starts.zip frame_starts.tail).filterMap
      (fun pq =>
        let start := pq.1 + 1
        let packet := pySlice buf start pq.2
        if start < pq.2 then (if sizeOK packet then some packet else none)
        else none)
    let remaining_buffer :=
      match frame_starts.getLast? with
      | some last => buf.drop last
      | none => buf
    (complete_packets, remaining_buffer)

/-- Fallback extraction path of QmdlReader._extract_hdlc_packets
(qmdl_reader.py lines 63-69, the except branch): split the buffer on every
0x7e, pop the final segment as the remaining buffer, and size-filter the
remaining segments. -/
def extract_fallback (buf : List Nat) : List (List Nat) × List Nat :=
  let packets := buf.splitOn HDLC_DELIM
  let packet_buffer := (packets.getLast?).getD []
  let valid_packets := packets.dropLast.filter sizeOK
  (valid_packets, packet_buffer)

/-- One iteration of the read loop of QmdlReader._read_hex_data
(qmdl_reader.py lines 122-136), restricted to its extraction state: the
carried tail is prepended to the incoming chunk, the primary extractor runs,
the emitted packets are appended to the run's list and the returned remaining
buffer becomes the new tail. -/
def extractStep (st : List (List Nat) × List Nat) (chunk : List Nat) :
    List (List Nat) × List Nat :=
  let buf := st.2 ++ chunk
  let r := extract_hdlc_packets buf
  (st.1 ++ r.1, r.2)

/-- Folding the read loop over a whole chunk sequence, starting from an empty
packet list and an empty tail buffer, as _read_hex_data does. -/
def processChunks (chunks : List (List Nat)) : List (List Nat) × List Nat :=
  chunks.foldl extractStep ([], [])

/-- Candidate frames of a buffer: the slices of bytes strictly between each
adjacent pair of delimiter positions, before size filtering
(qmdl_reader.py lines 44-49). -/
def candidateFrames (buf : List Nat) : List (List Nat) :=
  let fs := delimPositions buf
  (fs.zip fs.tail).map (fun pq => pySlice buf (pq.1 + 1) pq.2)

/-- Recursive splitting of a buffer at every delimiter byte; the functional
counterpart of bytes.split used by the fallback path, also used below to
characterise the primary path. -/
def splitSeg : List Nat → List (List Nat)
  | [] => [[]]
  | b :: bs =>
    if b = HDLC_DELIM then [] :: splitSeg bs
    else
      match splitSeg bs with
      | [] => [[b]]
      | g :: gs => (b :: g) :: gs

/-- Frames of a buffer described through its delimiter-split segments: all
segments except the one before the first delimiter and the one after the
last, size-filtered. -/
def segFrames (s : List Nat) : List (List Nat) :=
  ((splitSeg s).drop 1).dropLast.filter sizeOK

/-- Remaining buffer described through the delimiter-split segments: the whole
buffer when it holds fewer than two delimiters, else the delimiter followed by
the final segment. -/
def segTail (s : List Nat) : List Nat :=
  if (splitSeg s).length ≤ 2 then s
  else HDLC_DELIM :: ((splitSeg s).getLast?).getD []

/-- Replace the head segment of a segment list by prepending bytes to it. -/
def mergeHead (x : List Nat) : List (List Nat) → List (List Nat)
  | [] => []
  | g :: gs => (x ++ g) :: gs

/-- Decompression mode chosen by FileIO._open_file (fileio.py lines 14-23). -/
inductive OpenMode where
  | gzipMode
  | bz2Mode
  | rawMode
  deriving DecidableEq

/-- Lowest index at which pat occurs inside a character list, if any; the
functional reading of Python str.find restricted to its found/not-found
result. -/
def strFindOpt (pat : List Char) : List Char → Option Nat
  | [] => if pat.isPrefixOf ([] : List Char) then some 0 else none
  | c :: rest =>
    if pat.isPrefixOf (c :: rest) then some 0
    else (strFindOpt pat rest).map (fun i => i + 1)

/-- Python str.find: the lowest index of the occurrence, or -1 when absent. -/
def strFind (s pat : List Char) : Int :=
  match strFindOpt pat s with
  | some i => (i : Int)
  | none => -1

/-- The literal '.gz' searched for by FileIO._open_file. -/
def gzExt : List Char := ['.', 'g', 'z']

/-- The literal '.bz2' searched for by FileIO._open_file. -/
def bz2Ext : List Char := ['.', 'b', 'z', '2']

/-- Mode selection of FileIO._open_file (fileio.py lines 18-23): gzip when
fname.find('.gz') > 0, else bzip2 when fname.find('.bz2') > 0, else raw. -/
def open_file_mode (fname : List Char) : OpenMode :=
  if strFind fname gzExt > 0 then OpenMode.gzipMode
  else if strFind fname bz2Ext > 0 then OpenMode.bz2Mode
  else OpenMode.rawMode

/-- State of a FileIO object (fileio.py) restricted to the fields governing
file order and availability: the pending name stack (stored reversed, as
__init__ does), the name of the currently open file, and the availability
flag. The OS-level handle self.f is not part of the model; its open mode is
modelled separately by open_file_mode. -/
structure FileIOState where
  fnames : List (List Char)
  fname : List Char
  file_available : Bool
  deriving DecidableEq

/-- FileIO.open_next_file (fileio.py lines 48-54): pop the last element of
the stored (reversed) name list and open it; on IndexError (empty list) mark
the source unavailable and leave the rest of the state unchanged. -/
def open_next_file (st : FileIOState) : FileIOState :=
  match st.fnames.getLast? with
  | none => { st with file_available := false }
  | some last => { st with fnames := st.fnames.dropLast, fname := last }

/-- FileIO.__init__ (fileio.py lines 25-35) for a list argument: store the
reversed copy of the supplied names, mark the source available, and open the
first file. -/
def fileio_init (fnames : List (List Char)) : FileIOState :=
  open_next_file { fnames := fnames.reverse, fname := [], file_available := true }

/-- QmdlReader.read_qmdl_file (qmdl_reader.py lines 82-104) reduced to its
outcome: files below min_size_mb * 1024 * 1024 bytes are rejected with None
before any read; otherwise the function returns whatever the guarded read
attempt produced, where read_result = none stands for the except branch (the
whole read failing with an exception) and some payload for a completed
_read_hex_data result. -/
def reader_read_qmdl_file (file_size : Nat) (min_size_mb : Nat)
    (read_result : Option (List Char)) : Option (List Char) :=
  if file_size < min_size_mb * 1024 * 1024 then none
  else read_result

/-- Result returned over the bridge boundary: either a serialized error
object carrying a message, or a serialized success payload
(qmdl_bridge.py lines 127-138). -/
inductive BridgeOutcome where
  | errorMsg : List Char → BridgeOutcome
  | ok : List Char → BridgeOutcome
  deriving DecidableEq

/-- The error message of QmdlBridge.read_qmdl_file for a falsy reader
result (qmdl_bridge.py line 136). -/
def fileTooSmallOrUnreadMsg : List Char :=
  "File too small or could not be read".toList

/-- QmdlBridge.read_qmdl_file (qmdl_bridge.py lines 127-138): a truthy reader
result is serialized and returned, a None result becomes the fixed error
message. -/
def bridge_read_qmdl_file (result : Option (List Char)) : BridgeOutcome :=
  match result with
  | some payload => BridgeOutcome.ok payload
  | none => BridgeOutcome.errorMsg fileTooSmallOrUnreadMsg

/-- The literal '.qmdl' tested by QmdlReader.list_qmdl_files. -/
def qmdlExtLower : List Char := ['.', 'q', 'm', 'd', 'l']

/-- The literal '.QMDL' tested by QmdlReader.list_qmdl_files. -/
def qmdlExtUpper : List Char := ['.', 'Q', 'M', 'D', 'L']

/-- QmdlReader.list_qmdl_files (qmdl_reader.py lines 275-298) over an
accessible directory: each directory entry is a (name, size) pair as
delivered by os.listdir and os.path.getsize; an entry is kept when its name
ends with '.qmdl' or ends with '.QMDL' and its size reaches
min_size_mb * 1024 * 1024 bytes, and the kept entries are returned as joined
paths in listing order. -/
def list_qmdl_files (directory : List Char) (entries : List (List Char × Nat))
    (min_size_mb : Nat) : List (List Char) :=
  (entries.filter (fun e =>
      (qmdlExtLower.isSuffixOf e.1 || qmdlExtUpper.isSuffixOf e.1) &&
      decide (min_size_mb * 1024 * 1024 ≤ e.2))).map
    (fun e => directory ++ '/' :: e.1)

/-! Basic facts about delimiter positions and the segment decomposition. -/

theorem splitSeg_ne_nil (s : List Nat) : splitSeg s ≠ [] := by
  cases s with
  | nil => simp [splitSeg]
  | cons b bs =>
    by_cases hb : b = HDLC_DELIM
    · simp [splitSeg, hb]
    · simp only [splitSeg, if_neg hb]
      cases h : splitSeg bs <;> simp

theorem length_splitSeg (s : List Nat) :
    (splitSeg s).length = (delimPositions s).length + 1 := by
  induction s with
  | nil => simp [splitSeg, delimPositions]
  | cons b bs ih =>
    by_cases hb : b = HDLC_DELIM
    · simp [splitSeg, delimPositions, hb, ih]
    · simp only [splitSeg, delimPositions, if_neg hb]
      cases h : splitSeg bs with
      | nil => exact absurd h (splitSeg_ne_nil bs)
      | cons g gs =>
        rw [h] at ih
        simp only [List.length_cons, List.length_map] at ih ⊢
        omega

theorem mem_delimPositions {buf : List Nat} {p : Nat} :
    p ∈ delimPositions buf ↔ buf[p]? = some HDLC_DELIM := by
  induction buf generalizing p with
  | nil => simp [delimPositions]
  | cons b bs ih =>
    by_cases hb : b = HDLC_DELIM
    · cases p with
      | zero => simp [delimPositions, hb]
      | succ n =>
        simp only [delimPositions, if_pos hb, List.mem_cons, List.mem_map,
          List.getElem?_cons_succ]
        constructor
        · rintro (h0 | ⟨i, hi, hEq⟩)
          · omega
          · have : i = n := by omega
            exact ih.1 (this ▸ hi)
        · intro h
          exact Or.inr ⟨n, ih.2 h, rfl⟩
    · cases p with
      | zero =>
        simp only [delimPositions, if_neg hb, List.mem_map,
          List.getElem?_cons_zero]
        constructor
        · rintro ⟨i, hi, hEq⟩
          omega
        · intro h
          exact absurd (Option.some.inj h) hb
      | succ n =>
        simp only [delimPositions, if_neg hb, List.mem_map,
          List.getElem?_cons_succ]
        constructor
        · rintro ⟨i, hi, hEq⟩
          have : i = n := by omega
          exact ih.1 (this ▸ hi)
        · intro h
          exact ⟨n, ih.2 h, rfl⟩

theorem delimPositions_eq_nil_iff {buf : List Nat} :
    delimPositions buf = [] ↔ HDLC_DELIM ∉ buf := by
  induction buf with
  | nil => simp [delimPositions]
  | cons b bs ih =>
    by_cases hb : b = HDLC_DELIM
    · simp [delimPositions, hb]
    · simp only [delimPositions, if_neg hb, List.map_eq_nil_iff, ih,
        List.mem_cons]
      constructor
      · intro h hc
        rcases hc with hc | hc
        · exact hb hc.symm
        · exact h hc
      · intro h hm
        exact h (Or.inr hm)

theorem splitSeg_eq_single {s : List Nat} (h : HDLC_DELIM ∉ s) :
    splitSeg s = [s] := by
  induction s with
  | nil => rfl
  | cons b bs ih =>
    have hb : ¬ b = HDLC_DELIM := fun hc => h (by rw [hc]; exact List.mem_cons_self _ _)
    simp only [splitSeg, if_neg hb]
    rw [ih (fun hm => h (List.mem_cons_of_mem _ hm))]

theorem not_delim_of_mem_splitSeg {s g : List Nat}
    (hg : g ∈ splitSeg s) : HDLC_DELIM ∉ g := by
  induction s generalizing g with
  | nil =>
    simp only [splitSeg, List.mem_singleton] at hg
    subst hg
    simp
  | cons b bs ih =>
    by_cases hb : b = HDLC_DELIM
    · simp only [splitSeg, if_pos hb, List.mem_cons] at hg
      rcases hg with rfl | hm
      · simp
      · exact ih hm
    · simp only [splitSeg, if_neg hb] at hg
      cases hsp : splitSeg bs with
      | nil => exact absurd hsp (splitSeg_ne_nil bs)
      | cons g0 gs =>
        rw [hsp] at hg
        rcases List.mem_cons.1 hg with rfl | hm
        · intro hmem
          rcases List.mem_cons.1 hmem with hd | hm2
          · exact hb hd.symm
          · exact ih (hsp ▸ List.mem_cons_self g0 gs) hm2
        · exact ih (hsp ▸ List.mem_cons_of_mem g0 hm)

theorem head?_splitSeg (s : List Nat) :
    (splitSeg s).head? = some (s.takeWhile (fun b => !(b == HDLC_DELIM))) := by
  induction s with
  | nil => rfl
  | cons b bs ih =>
    by_cases hb : b = HDLC_DELIM
    · simp [splitSeg, hb, List.takeWhile_cons]
    · simp only [splitSeg, if_neg hb]
      cases hsp : splitSeg bs with
      | nil => exact absurd hsp (splitSeg_ne_nil bs)
      | cons g gs =>
        rw [hsp] at ih
        simp only [List.head?_cons, Option.some.injEq] at ih
        simp [List.takeWhile_cons, hb, ih]

theorem splitSeg_eq_splitOn (s : List Nat) : splitSeg s = s.splitOn HDLC_DELIM := by
  induction s with
  | nil => rfl
  | cons b bs ih =>
    show splitSeg (b :: bs) = List.splitOnP (· == HDLC_DELIM) (b :: bs)
    rw [List.splitOnP_cons]
    by_cases hb : b = HDLC_DELIM
    · simp only [splitSeg, if_pos hb, hb, beq_self_eq_true, if_pos]
      rw [ih]
      rfl
    · have hbeq : (b == HDLC_DELIM) = false := beq_eq_false_iff_ne.2 hb
      simp only [splitSeg, if_neg hb, hbeq, Bool.false_eq_true, if_false]
      have ih2 : splitSeg bs = List.splitOnP (· == HDLC_DELIM) bs := ih
      cases hsp : splitSeg bs with
      | nil => exact absurd hsp (splitSeg_ne_nil bs)
      | cons g gs =>
        rw [← ih2, hsp]
        rfl

theorem pySlice_cons (b : Nat) (t : List Nat) (s e : Nat) :
    pySlice (b :: t) (s + 1) (e + 1) = pySlice t s e := by
  simp [pySlice]

theorem length_pySlice (buf : List Nat) (s e : Nat) :
    (pySlice buf s e).length = min e buf.length - s := by
  simp [pySlice]

theorem pySlice_eq_nil_of_le {buf : List Nat} {s e : Nat} (h : e ≤ s) :
    pySlice buf s e = [] := by
  have hlen : (pySlice buf s e).length = 0 := by
    rw [length_pySlice]
    omega
  exact List.length_eq_zero.1 hlen

theorem getLast?_cons_ne_nil {α : Type} {a : α} {l : List α} (h : l ≠ []) :
    (a :: l).getLast? = l.getLast? := by
  cases l with
  | nil => exact absurd rfl h
  | cons c cs => simp

theorem dropLast_eq_nil_of_length_le {α : Type} {l : List α} (h : l.length ≤ 1) :
    l.dropLast = [] := by
  cases l with
  | nil => rfl
  | cons a t =>
    cases t with
    | nil => rfl
    | cons b t2 => simp at h

theorem drop_one_dropLast {α : Type} (l : List α) :
    l.dropLast.drop 1 = (l.drop 1).dropLast := by
  cases l with
  | nil => rfl
  | cons a t =>
    cases t with
    | nil => rfl
    | cons b t2 => simp [List.dropLast_cons₂]

theorem splitSeg_firstDelim {t : List Nat} {p : Nat} {rest : List Nat}
    (h : delimPositions t = p :: rest) :
    splitSeg t = t.take p :: splitSeg (t.drop (p + 1)) := by
  induction t generalizing p rest with
  | nil => simp [delimPositions] at h
  | cons b bs ih =>
    by_cases hb : b = HDLC_DELIM
    · simp only [delimPositions, if_pos hb] at h
      have hp : p = 0 := by
        injection h with h1 h2
        omega
      subst hp
      simp [splitSeg, hb]
    · simp only [delimPositions, if_neg hb] at h
      cases hdp : delimPositions bs with
      | nil =>
        rw [hdp] at h
        simp at h
      | cons q qs =>
        rw [hdp] at h
        simp only [List.map_cons, List.cons.injEq] at h
        obtain ⟨hp, -⟩ := h
        subst hp
        simp only [splitSeg, if_neg hb, List.take_succ_cons, List.drop_succ_cons]
        rw [ih hdp]

theorem drop_getLast_delimPositions {buf : List Nat} {p : Nat}
    (h : (delimPositions buf).getLast? = some p) :
    buf.drop p = HDLC_DELIM :: ((splitSeg buf).getLast?).getD [] := by
  induction buf generalizing p with
  | nil => simp [delimPositions] at h
  | cons b bs ih =>
    by_cases hb : b = HDLC_DELIM
    · simp only [delimPositions, if_pos hb] at h
      cases hdp : delimPositions bs with
      | nil =>
        rw [hdp] at h
        simp only [List.map_nil, List.getLast?_singleton, Option.some.injEq] at h
        subst h
        have hnb : HDLC_DELIM ∉ bs := delimPositions_eq_nil_iff.1 hdp
        have hsp : splitSeg (b :: bs) = [] :: splitSeg bs := by
          simp [splitSeg, hb]
        rw [List.drop_zero, hsp, splitSeg_eq_single hnb]
        simp [hb]
      | cons q qs =>
        rw [hdp] at h
        rw [getLast?_cons_ne_nil (by simp)] at h
        rw [List.getLast?_map] at h
        cases hql : (q :: qs).getLast? with
        | none => simp [hql] at h
        | some p0 =>
          rw [hql] at h
          simp only [Option.map_some', Option.some.injEq] at h
          subst h
          have ihb := ih (p := p0) (by rw [hdp]; exact hql)
          rw [List.drop_succ_cons, ihb]
          have hsp : splitSeg (b :: bs) = [] :: splitSeg bs := by
            simp [splitSeg, hb]
          rw [hsp, getLast?_cons_ne_nil (splitSeg_ne_nil bs)]
    · simp only [delimPositions, if_neg hb] at h
      cases hdp : delimPositions bs with
      | nil =>
        rw [hdp] at h
        simp at h
      | cons q qs =>
        rw [hdp] at h
        rw [List.getLast?_map] at h
        cases hql : (q :: qs).getLast? with
        | none => simp [hql] at h
        | some p0 =>
          rw [hql] at h
          simp only [Option.map_some', Option.some.injEq] at h
          subst h
          have ihb := ih (p := p0) (by rw [hdp]; exact hql)
          rw [List.drop_succ_cons, ihb]
          cases hsp : splitSeg bs with
          | nil => exact absurd hsp (splitSeg_ne_nil bs)
          | cons g gs =>
            cases gs with
            | nil =>
              have hlen := length_splitSeg bs
              rw [hsp, hdp] at hlen
              simp at hlen
            | cons g2 gs2 =>
              have hsp2 : splitSeg (b :: bs) = (b :: g) :: g2 :: gs2 := by
                simp only [splitSeg, if_neg hb]
                rw [hsp]
              rw [hsp2]
              simp

theorem tail_map {α β : Type} (f : α → β) (l : List α) :
    (l.map f).tail = l.tail.map f := by
  cases l <;> rfl

theorem candidateFrames_shift (b : Nat) (t : List Nat) (fs : List Nat) :
    ((fs.map (fun i => i + 1)).zip ((fs.map (fun i => i + 1)).tail)).map
        (fun pq => pySlice (b :: t) (pq.1 + 1) pq.2) =
      (fs.zip fs.tail).map (fun pq => pySlice t (pq.1 + 1) pq.2) := by
  rw [tail_map, List.zip_map, List.map_map]
  refine List.map_congr_left ?_
  intro pq _
  cases pq with
  | mk p q =>
    simp only [Function.comp, Prod.map]
    exact pySlice_cons b t (p + 1) q

theorem candidateFrames_def (buf : List Nat) :
    candidateFrames buf =
      ((delimPositions buf).zip (delimPositions buf).tail).map
        (fun pq => pySlice buf (pq.1 + 1) pq.2) := rfl

theorem candidateFrames_eq (buf : List Nat) :
    candidateFrames buf = ((splitSeg buf).drop 1).dropLast := by
  induction buf with
  | nil => rfl
  | cons b bs ih =>
    by_cases hb : b = HDLC_DELIM
    · cases hdp : delimPositions bs with
      | nil =>
        have hsingle : splitSeg bs = [bs] :=
          splitSeg_eq_single (delimPositions_eq_nil_iff.1 hdp)
        rw [candidateFrames_def]
        simp only [delimPositions, if_pos hb, hdp, List.map_nil]
        simp [splitSeg, hb, hsingle]
      | cons q qs =>
        have hfd := splitSeg_firstDelim hdp
        rw [candidateFrames_def]
        simp only [delimPositions, if_pos hb, hdp]
        rw [show ((q :: qs).map (fun i => i + 1)) =
              (q + 1) :: qs.map (fun i => i + 1) from rfl]
        rw [show (0 :: (q + 1) :: qs.map (fun i => i + 1)).tail =
              (q + 1) :: qs.map (fun i => i + 1) from rfl]
        rw [List.zip_cons_cons, List.map_cons]
        rw [show ((q + 1) :: qs.map (fun i => i + 1)) =
              (q :: qs).map (fun i => i + 1) from rfl]
        rw [show ((q :: qs).map (fun i => i + 1)).zip (qs.map (fun i => i + 1)) =
              ((q :: qs).map (fun i => i + 1)).zip
                (((q :: qs).map (fun i => i + 1)).tail) from rfl]
        rw [candidateFrames_shift b bs (q :: qs)]
        have hrest : ((q :: qs).zip (q :: qs).tail).map
            (fun pq => pySlice bs (pq.1 + 1) pq.2) = candidateFrames bs := by
          rw [candidateFrames_def, hdp]
        rw [hrest, ih]
        have hslice : pySlice (b :: bs) (0 + 1) (q + 1) = bs.take q := by
          rw [show (0 + 1) = 0 + 1 from rfl]
          rw [pySlice_cons b bs 0 q]
          simp [pySlice]
        rw [hslice]
        have hsp2 : splitSeg (b :: bs) = [] :: splitSeg bs := by
          simp [splitSeg, hb]
        rw [hsp2]
        simp only [List.drop_succ_cons, List.drop_zero, hfd]
        rw [List.dropLast_cons_of_ne_nil (splitSeg_ne_nil _)]
    · rw [candidateFrames_def]
      simp only [delimPositions, if_neg hb]
      rw [candidateFrames_shift b bs (delimPositions bs)]
      rw [← candidateFrames_def, ih]
      cases hsp : splitSeg bs with
      | nil => exact absurd hsp (splitSeg_ne_nil bs)
      | cons g gs =>
        have hsp2 : splitSeg (b :: bs) = (b :: g) :: gs := by
          simp only [splitSeg, if_neg hb]
          rw [hsp]
        rw [hsp2]
        rfl

theorem filterMap_guard (buf : List Nat) (l : List (Nat × Nat)) :
    (l.filterMap (fun pq =>
        if pq.1 + 1 < pq.2 then
          (if sizeOK (pySlice buf (pq.1 + 1) pq.2) then
            some (pySlice buf (pq.1 + 1) pq.2)
          else none)
        else none)) =
      (l.map (fun pq => pySlice buf (pq.1 + 1) pq.2)).filter sizeOK := by
  induction l with
  | nil => rfl
  | cons pq rest ih =>
    cases pq with
    | mk p q =>
      by_cases hlt : p + 1 < q
      · by_cases hsz : sizeOK (pySlice buf (p + 1) q) = true
        · simp [List.filterMap_cons, List.filter_cons, hlt, hsz, ih]
        · simp only [Bool.not_eq_true] at hsz
          simp [List.filterMap_cons, List.filter_cons, hlt, hsz, ih]
      · have hnil : pySlice buf (p + 1) q = [] := pySlice_eq_nil_of_le (by omega)
        have hsz : sizeOK (pySlice buf (p + 1) q) = false := by
          rw [hnil]
          rfl
        simp [List.filterMap_cons, List.filter_cons, hlt, hsz, ih]

theorem extract_hdlc_packets_eq (buf : List Nat) :
    extract_hdlc_packets buf = (segFrames buf, segTail buf) := by
  by_cases h : (delimPositions buf).length < 2
  · have hseg : segFrames buf = [] := by
      unfold segFrames
      have hlen : ((splitSeg buf).drop 1).length ≤ 1 := by
        rw [List.length_drop, length_splitSeg]
        omega
      rw [dropLast_eq_nil_of_length_le hlen]
      rfl
    have htail : segTail buf = buf := by
      unfold segTail
      rw [if_pos]
      rw [length_splitSeg]
      omega
    rw [hseg, htail]
    simp only [extract_hdlc_packets]
    rw [if_pos h]
  · have hlen2 : 2 ≤ (delimPositions buf).length := by omega
    have hne : delimPositions buf ≠ [] := by
      intro hc
      rw [hc] at hlen2
      simp at hlen2
    obtain ⟨p, hp⟩ : ∃ p, (delimPositions buf).getLast? = some p := by
      cases hq : (delimPositions buf).getLast? with
      | none => exact absurd (List.getLast?_eq_none_iff.1 hq) hne
      | some x => exact ⟨x, rfl⟩
    simp only [extract_hdlc_packets]
    rw [if_neg h, hp]
    rw [Prod.mk.injEq]
    constructor
    · rw [filterMap_guard]
      rw [← candidateFrames_def, candidateFrames_eq]
      rfl
    · show buf.drop p = segTail buf
      rw [drop_getLast_delimPositions hp]
      unfold segTail
      rw [if_neg]
      rw [length_splitSeg]
      omega

theorem getLast?_append_ne_nil {α : Type} {l₂ : List α} (l₁ : List α)
    (h : l₂ ≠ []) : (l₁ ++ l₂).getLast? = l₂.getLast? := by
  rw [List.getLast?_append]
  cases hq : l₂.getLast? with
  | none => exact absurd (List.getLast?_eq_none_iff.1 hq) h
  | some x => rfl

theorem drop_one_append {α : Type} {A : List α} (B : List α) (h : A ≠ []) :
    (A ++ B).drop 1 = A.drop 1 ++ B :=
  List.drop_append_of_le_length (List.length_pos.2 h)

theorem splitSeg_append (x y : List Nat) :
    splitSeg (x ++ y) =
      (splitSeg x).dropLast ++
        mergeHead (((splitSeg x).getLast?).getD []) (splitSeg y) := by
  induction x with
  | nil =>
    cases hy : splitSeg y with
    | nil => exact absurd hy (splitSeg_ne_nil y)
    | cons h t => simp [splitSeg, mergeHead, hy]
  | cons b x' ih =>
    by_cases hb : b = HDLC_DELIM
    · have hx : splitSeg (b :: x') = [] :: splitSeg x' := by
        simp [splitSeg, hb]
      rw [List.cons_append]
      rw [show splitSeg (b :: (x' ++ y)) = [] :: splitSeg (x' ++ y) by
        simp [splitSeg, hb]]
      rw [ih, hx]
      rw [List.dropLast_cons_of_ne_nil (splitSeg_ne_nil x')]
      rw [getLast?_cons_ne_nil (splitSeg_ne_nil x')]
      simp [List.cons_append]
    · cases hsx : splitSeg x' with
      | nil => exact absurd hsx (splitSeg_ne_nil x')
      | cons g gs =>
        have hx : splitSeg (b :: x') = (b :: g) :: gs := by
          simp only [splitSeg, if_neg hb]
          rw [hsx]
        rw [List.cons_append]
        cases hsy : splitSeg y with
        | nil => exact absurd hsy (splitSeg_ne_nil y)
        | cons h t =>
          cases gs with
          | nil =>
            have hxy : splitSeg (x' ++ y) = (g ++ h) :: t := by
              rw [ih, hsx, hsy]
              simp [mergeHead]
            have hbxy : splitSeg (b :: (x' ++ y)) = (b :: (g ++ h)) :: t := by
              simp only [splitSeg, if_neg hb]
              rw [hxy]
            rw [hbxy, hx]
            simp [mergeHead]
          | cons g2 gs2 =>
            have hxy : splitSeg (x' ++ y) =
                g :: ((g2 :: gs2).dropLast ++
                  mergeHead (((g2 :: gs2).getLast?).getD []) (h :: t)) := by
              rw [ih, hsx, hsy]
              rw [List.dropLast_cons_of_ne_nil (by simp)]
              rw [getLast?_cons_ne_nil (by simp)]
              simp [List.cons_append]
            have hbxy : splitSeg (b :: (x' ++ y)) =
                (b :: g) :: ((g2 :: gs2).dropLast ++
                  mergeHead (((g2 :: gs2).getLast?).getD []) (h :: t)) := by
              simp only [splitSeg, if_neg hb]
              rw [hxy]
            rw [hbxy, hx]
            rw [List.dropLast_cons₂, List.getLast?_cons_cons]
            simp [List.cons_append]

theorem segFrames_def (buf : List Nat) :
    segFrames buf = ((splitSeg buf).drop 1).dropLast.filter sizeOK := rfl

theorem segTail_small {buf : List Nat} (h : (splitSeg buf).length ≤ 2) :
    segTail buf = buf := by
  unfold segTail
  rw [if_pos h]

theorem segTail_large {buf : List Nat} (h : ¬ (splitSeg buf).length ≤ 2) :
    segTail buf = HDLC_DELIM :: ((splitSeg buf).getLast?).getD [] := by
  unfold segTail
  rw [if_neg h]

theorem segFrames_small {buf : List Nat} (h : (splitSeg buf).length ≤ 2) :
    segFrames buf = [] := by
  rw [segFrames_def]
  rw [dropLast_eq_nil_of_length_le (by rw [List.length_drop]; omega)]
  rfl

theorem extract_small {buf : List Nat} (h : (splitSeg buf).length ≤ 2) :
    extract_hdlc_packets buf = ([], buf) := by
  rw [extract_hdlc_packets_eq, segFrames_small h, segTail_small h]

theorem extract_append (s c : List Nat) :
    extract_hdlc_packets (s ++ c) =
      ((extract_hdlc_packets s).1 ++
          (extract_hdlc_packets ((extract_hdlc_packets s).2 ++ c)).1,
        (extract_hdlc_packets ((extract_hdlc_packets s).2 ++ c)).2) := by
  rw [extract_hdlc_packets_eq s]
  dsimp only
  by_cases h2 : (splitSeg s).length ≤ 2
  · rw [segTail_small h2, segFrames_small h2]
    simp
  · obtain ⟨gL, hgL⟩ : ∃ g, (splitSeg s).getLast? = some g := by
      cases hq : (splitSeg s).getLast? with
      | none => exact absurd (List.getLast?_eq_none_iff.1 hq) (splitSeg_ne_nil s)
      | some g => exact ⟨g, rfl⟩
    have hgLfree : HDLC_DELIM ∉ gL :=
      not_delim_of_mem_splitSeg (List.mem_of_getLast?_eq_some hgL)
    have htail : segTail s = HDLC_DELIM :: gL := by
      rw [segTail_large h2, hgL]
      rfl
    have hsplitTail : splitSeg (segTail s) = [[], gL] := by
      rw [htail]
      rw [show splitSeg (HDLC_DELIM :: gL) = [] :: splitSeg gL by simp [splitSeg]]
      rw [splitSeg_eq_single hgLfree]
    have hTC : splitSeg (segTail s ++ c) = [] :: mergeHead gL (splitSeg c) := by
      rw [splitSeg_append, hsplitTail]
      rfl
    have hSC : splitSeg (s ++ c) =
        (splitSeg s).dropLast ++ mergeHead gL (splitSeg c) := by
      rw [splitSeg_append, hgL]
      rfl
    have hAlen : 2 ≤ (splitSeg s).dropLast.length := by
      rw [List.length_dropLast]
      omega
    have hAne : (splitSeg s).dropLast ≠ [] := by
      intro hcon
      rw [hcon] at hAlen
      simp at hAlen
    cases hsy : splitSeg c with
    | nil => exact absurd hsy (splitSeg_ne_nil c)
    | cons hc tc =>
      rw [hsy] at hTC hSC
      cases tc with
      | nil =>
        have hnd : HDLC_DELIM ∉ c := by
          apply delimPositions_eq_nil_iff.1
          apply List.length_eq_zero.1
          have hlc := length_splitSeg c
          rw [hsy] at hlc
          simp only [List.length_singleton] at hlc
          omega
        have hcc : c = hc := by
          have hone := splitSeg_eq_single hnd
          rw [hsy] at hone
          injection hone with h1 h2
          exact h1.symm
        have hTC2 : splitSeg (segTail s ++ c) = [[], gL ++ hc] := by
          rw [hTC]
          rfl
        have hSC2 : splitSeg (s ++ c) =
            (splitSeg s).dropLast ++ [gL ++ hc] := by
          rw [hSC]
          rfl
        have hext : extract_hdlc_packets (segTail s ++ c) = ([], segTail s ++ c) := by
          apply extract_small
          rw [hTC2]
          simp
        rw [hext]
        dsimp only
        rw [List.append_nil]
        rw [extract_hdlc_packets_eq (s ++ c)]
        rw [Prod.mk.injEq]
        constructor
        · rw [segFrames_def, hSC2]
          rw [drop_one_append _ hAne]
          rw [List.dropLast_concat]
          rw [drop_one_dropLast]
          rfl
        · have hlenSC : ¬ (splitSeg (s ++ c)).length ≤ 2 := by
            rw [hSC2, List.length_append]
            simp only [List.length_singleton]
            omega
          rw [segTail_large hlenSC, hSC2]
          rw [getLast?_append_ne_nil _ (by simp)]
          rw [htail]
          simp [hcc]
      | cons c2 cs2 =>
        have hTC2 : splitSeg (segTail s ++ c) = [] :: (gL ++ hc) :: c2 :: cs2 := by
          rw [hTC]
          rfl
        have hSC2 : splitSeg (s ++ c) =
            (splitSeg s).dropLast ++ (gL ++ hc) :: c2 :: cs2 := by
          rw [hSC]
          rfl
        have hlenTC : ¬ (splitSeg (segTail s ++ c)).length ≤ 2 := by
          rw [hTC2]
          simp
        have hfrTC : (extract_hdlc_packets (segTail s ++ c)).1 =
            ((gL ++ hc) :: (c2 :: cs2).dropLast).filter sizeOK := by
          rw [extract_hdlc_packets_eq]
          dsimp only
          rw [segFrames_def, hTC2]
          rfl
        have htlTC : (extract_hdlc_packets (segTail s ++ c)).2 =
            HDLC_DELIM :: ((c2 :: cs2).getLast?).getD [] := by
          rw [extract_hdlc_packets_eq]
          dsimp only
          rw [segTail_large hlenTC, hTC2]
          rw [List.getLast?_cons_cons, List.getLast?_cons_cons]
        rw [hfrTC, htlTC]
        rw [extract_hdlc_packets_eq (s ++ c)]
        rw [Prod.mk.injEq]
        constructor
        · rw [segFrames_def, hSC2]
          rw [drop_one_append _ hAne]
          rw [List.dropLast_append_cons]
          rw [List.filter_append]
          rw [drop_one_dropLast]
          rfl
        · have hlenSC : ¬ (splitSeg (s ++ c)).length ≤ 2 := by
            rw [hSC2, List.length_append]
            simp only [List.length_cons]
            omega
          rw [segTail_large hlenSC, hSC2]
          rw [getLast?_append_ne_nil _ (by simp)]
          rw [List.getLast?_cons_cons]

theorem foldl_extractStep (chunks : List (List Nat)) :
    ∀ s : List Nat, chunks.foldl extractStep (extract_hdlc_packets s) =
      extract_hdlc_packets (s ++ chunks.flatten) := by
  induction chunks with
  | nil =>
    intro s
    simp
  | cons ch rest ih =>
    intro s
    rw [List.foldl_cons]
    have hstep : extractStep (extract_hdlc_packets s) ch =
        extract_hdlc_packets (s ++ ch) := by
      rw [extract_append]
      rfl
    rw [hstep, ih (s ++ ch)]
    rw [List.flatten_cons, List.append_assoc]

theorem processChunks_eq_extract_join (chunks : List (List Nat)) :
    processChunks chunks = extract_hdlc_packets chunks.flatten := by
  have h0 : (([], []) : List (List Nat) × List Nat) =
      extract_hdlc_packets [] := rfl
  unfold processChunks
  rw [h0, foldl_extractStep chunks []]
  rw [List.nil_append]

/-! Claim theorems. -/

/-- C1: chunk-boundary independence of extraction: for every total byte
stream and any two partitions of it into non-empty chunks, folding the
primary extraction step (prepend carried tail, scan, emit, keep new tail)
over the two chunk sequences yields the identical ordered sequence of
emitted frames. -/
theorem chunk_boundary_independence (chunks₁ chunks₂ : List (List Nat))
    (h₁ : ∀ ch ∈ chunks₁, ch ≠ []) (h₂ : ∀ ch ∈ chunks₂, ch ≠ [])
    (hjoin : chunks₁.flatten = chunks₂.flatten) :
    (processChunks chunks₁).1 = (processChunks chunks₂).1 := by
  rw [processChunks_eq_extract_join, processChunks_eq_extract_join, hjoin]

/-- Witness for C1 at a concrete stream split two ways. -/
theorem chunk_boundary_independence_witness :
    (∀ ch ∈ [[126, 1, 2, 3, 126]], ch ≠ ([] : List Nat)) ∧
    (∀ ch ∈ [[126, 1], [2, 3, 126]], ch ≠ ([] : List Nat)) ∧
    [[126, 1, 2, 3, 126]].flatten = [[126, 1], [2, 3, 126]].flatten ∧
    (processChunks [[126, 1, 2, 3, 126]]).1 =
      (processChunks [[126, 1], [2, 3, 126]]).1 :=
  ⟨by decide, by decide, by decide,
    chunk_boundary_independence _ _ (by decide) (by decide) (by decide)⟩

/-- C2: for a well-formed, delimiter-bounded buffer the fallback split
strategy emits exactly the same frames, in the same order, as the primary
scanning algorithm. -/
theorem fallback_primary_agreement (buf : List Nat)
    (hfirst : buf.head? = some HDLC_DELIM)
    (hlast : buf.getLast? = some HDLC_DELIM) :
    (extract_hdlc_packets buf).1 = (extract_fallback buf).1 := by
  rw [extract_hdlc_packets_eq]
  dsimp only
  have hfb : (extract_fallback buf).1 = ((splitSeg buf).dropLast).filter sizeOK := by
    unfold extract_fallback
    dsimp only
    rw [← splitSeg_eq_splitOn]
  rw [hfb, segFrames_def]
  cases buf with
  | nil => simp at hfirst
  | cons b rest =>
    simp only [List.head?_cons, Option.some.injEq] at hfirst
    subst hfirst
    rw [show splitSeg (HDLC_DELIM :: rest) = [] :: splitSeg rest by simp [splitSeg]]
    rw [List.drop_succ_cons, List.drop_zero]
    cases hsr : splitSeg rest with
    | nil => exact absurd hsr (splitSeg_ne_nil rest)
    | cons g gs =>
      have h0 : sizeOK ([] : List Nat) = false := rfl
      rw [List.dropLast_cons₂]
      simp [List.filter_cons, h0]

/-- Witness for C2 at a concrete delimiter-bounded buffer. -/
theorem fallback_primary_agreement_witness :
    ([126, 5, 6, 7, 126] : List Nat).head? = some HDLC_DELIM ∧
    ([126, 5, 6, 7, 126] : List Nat).getLast? = some HDLC_DELIM ∧
    (extract_hdlc_packets [126, 5, 6, 7, 126]).1 =
      (extract_fallback [126, 5, 6, 7, 126]).1 :=
  ⟨by decide, by decide,
    fallback_primary_agreement _ (by decide) (by decide)⟩

/-- C3: tail contract of the primary extraction: fewer than two delimiters
emit nothing and keep the whole buffer; with two or more the returned tail is
the suffix of the buffer starting at, and including, the last delimiter. -/
theorem tail_contract (buf : List Nat) :
    ((delimPositions buf).length < 2 →
      extract_hdlc_packets buf = ([], buf)) ∧
    (2 ≤ (delimPositions buf).length →
      ∀ p, (delimPositions buf).getLast? = some p →
        (extract_hdlc_packets buf).2 = buf.drop p ∧
        (buf.drop p).head? = some HDLC_DELIM) := by
  constructor
  · intro h
    apply extract_small
    rw [length_splitSeg]
    omega
  · intro h p hp
    constructor
    · rw [extract_hdlc_packets_eq]
      dsimp only
      rw [drop_getLast_delimPositions hp]
      rw [segTail_large (by rw [length_splitSeg]; omega)]
    · have hmem : p ∈ delimPositions buf := List.mem_of_getLast?_eq_some hp
      have hget : buf[p]? = some HDLC_DELIM := mem_delimPositions.1 hmem
      have hlt : p < buf.length := by
        by_contra hge
        rw [List.getElem?_eq_none (by omega)] at hget
        exact Option.noConfusion hget
      have hval : buf[p] = HDLC_DELIM := by
        rw [List.getElem?_eq_getElem hlt] at hget
        exact Option.some.inj hget
      rw [List.drop_eq_getElem_cons hlt, List.head?_cons, hval]

/-- Witness for C3 on a delimiter-free pair and a two-delimiter buffer. -/
theorem tail_contract_witness :
    (delimPositions [1, 2]).length < 2 ∧
    extract_hdlc_packets [1, 2] = ([], [1, 2]) ∧
    2 ≤ (delimPositions [126, 1, 2, 3, 126]).length ∧
    (delimPositions [126, 1, 2, 3, 126]).getLast? = some 4 ∧
    (extract_hdlc_packets [126, 1, 2, 3, 126]).2 = [126, 1, 2, 3, 126].drop 4 ∧
    ([126, 1, 2, 3, 126].drop 4).head? = some HDLC_DELIM :=
  ⟨by decide, (tail_contract [1, 2]).1 (by decide), by decide, by decide,
    ((tail_contract [126, 1, 2, 3, 126]).2 (by decide) 4 (by decide)).1,
    ((tail_contract [126, 1, 2, 3, 126]).2 (by decide) 4 (by decide)).2⟩

theorem extract_delim_replicate (n : Nat) :
    extract_hdlc_packets (HDLC_DELIM :: List.replicate n 0 ++ [HDLC_DELIM]) =
      (if 3 ≤ n ∧ n ≤ 8192 then [List.replicate n 0] else [], [HDLC_DELIM]) := by
  have hfree : HDLC_DELIM ∉ List.replicate n 0 := by
    intro hm
    have := List.eq_of_mem_replicate hm
    simp [HDLC_DELIM] at this
  have hsp : splitSeg (HDLC_DELIM :: List.replicate n 0 ++ [HDLC_DELIM]) =
      [[], List.replicate n 0, []] := by
    rw [show HDLC_DELIM :: List.replicate n 0 ++ [HDLC_DELIM] =
          (HDLC_DELIM :: List.replicate n 0) ++ [HDLC_DELIM] from rfl]
    rw [splitSeg_append]
    rw [show splitSeg (HDLC_DELIM :: List.replicate n 0) =
          [] :: splitSeg (List.replicate n 0) by simp [splitSeg]]
    rw [splitSeg_eq_single hfree]
    rw [show splitSeg [HDLC_DELIM] = [[], []] by simp [splitSeg]]
    simp [mergeHead]
  rw [extract_hdlc_packets_eq, Prod.mk.injEq]
  constructor
  · rw [segFrames_def, hsp]
    by_cases hn : 3 ≤ n ∧ n ≤ 8192
    · have hs : sizeOK (List.replicate n 0) = true := by
        unfold sizeOK
        rw [List.length_replicate]
        exact decide_eq_true hn
      rw [if_pos hn]
      simp [List.filter_cons, hs]
    · have hs : sizeOK (List.replicate n 0) = false := by
        unfold sizeOK
        rw [List.length_replicate]
        exact decide_eq_false hn
      rw [if_neg hn]
      simp [List.filter_cons, hs]
  · rw [segTail_large (by rw [hsp]; simp), hsp]
    rfl

/-- C4: size filtering of candidate frames is inclusive on both bounds:
the emitted frames are exactly the candidate slices whose length lies in
[3, 8192], and in particular a frame of exactly 3 or exactly 8192 bytes is
emitted while one of 2 or 8193 bytes is silently discarded. -/
theorem frame_size_window :
    (∀ buf, (extract_hdlc_packets buf).1 = (candidateFrames buf).filter sizeOK) ∧
    (extract_hdlc_packets (HDLC_DELIM :: List.replicate 3 0 ++ [HDLC_DELIM])).1 =
      [List.replicate 3 0] ∧
    (extract_hdlc_packets (HDLC_DELIM :: List.replicate 8192 0 ++ [HDLC_DELIM])).1 =
      [List.replicate 8192 0] ∧
    (extract_hdlc_packets (HDLC_DELIM :: List.replicate 2 0 ++ [HDLC_DELIM])).1 = [] ∧
    (extract_hdlc_packets (HDLC_DELIM :: List.replicate 8193 0 ++ [HDLC_DELIM])).1 = [] := by
  refine ⟨?_, ?_, ?_, ?_, ?_⟩
  · intro buf
    rw [extract_hdlc_packets_eq]
    dsimp only
    rw [segFrames_def, candidateFrames_eq]
  · rw [extract_delim_replicate]
    norm_num
  · rw [extract_delim_replicate]
    norm_num
  · rw [extract_delim_replicate]
    norm_num
  · rw [extract_delim_replicate]
    norm_num

/-- C5 counterexample: on a buffer that does not begin with the delimiter,
the fallback split strategy does emit the bytes preceding the first
delimiter as a frame, refuting the claim as stated for the fallback path. -/
theorem leading_fragment_fallback_emits :
    ([65, 66, 67, 126, 126] : List Nat).head? ≠ some HDLC_DELIM ∧
    ([65, 66, 67, 126, 126] : List Nat).takeWhile (fun b => !(b == HDLC_DELIM)) =
      [65, 66, 67] ∧
    (extract_fallback [65, 66, 67, 126, 126]).1 = [[65, 66, 67]] := by
  decide

/-- C5 amended: for a buffer that does not begin with the delimiter, the
primary scanning algorithm never emits the leading pre-delimiter fragment:
its frames are exactly the size-filtered segments strictly between delimiter
occurrences, and the leading fragment is the head segment, which is dropped;
the fallback path may emit it. -/
theorem leading_fragment_primary_dropped (buf : List Nat)
    (h : buf.head? ≠ some HDLC_DELIM) :
    (extract_hdlc_packets buf).1 =
      ((splitSeg buf).drop 1).dropLast.filter sizeOK ∧
    (splitSeg buf).head? =
      some (buf.takeWhile (fun b => !(b == HDLC_DELIM))) := by
  constructor
  · rw [extract_hdlc_packets_eq]
    dsimp only
    rw [segFrames_def]
  · exact head?_splitSeg buf

/-- Witness for C5 at a concrete buffer with a leading fragment. -/
theorem leading_fragment_primary_dropped_witness :
    ([65, 66, 67, 126, 1, 2, 3, 126] : List Nat).head? ≠ some HDLC_DELIM ∧
    ((extract_hdlc_packets [65, 66, 67, 126, 1, 2, 3, 126]).1 =
        ((splitSeg [65, 66, 67, 126, 1, 2, 3, 126]).drop 1).dropLast.filter sizeOK ∧
      (splitSeg [65, 66, 67, 126, 1, 2, 3, 126]).head? =
        some (([65, 66, 67, 126, 1, 2, 3, 126] : List Nat).takeWhile
          (fun b => !(b == HDLC_DELIM)))) :=
  ⟨by decide, leading_fragment_primary_dropped _ (by decide)⟩

/-- C10: every frame emitted by the primary extraction path is free of the
delimiter byte 0x7e. -/
theorem frames_delim_free (buf : List Nat) (p : List Nat)
    (hp : p ∈ (extract_hdlc_packets buf).1) : HDLC_DELIM ∉ p := by
  rw [extract_hdlc_packets_eq] at hp
  dsimp only at hp
  rw [segFrames_def] at hp
  have h1 : p ∈ ((splitSeg buf).drop 1).dropLast := List.mem_of_mem_filter hp
  have h2 : p ∈ (splitSeg buf).drop 1 := (List.dropLast_sublist _).subset h1
  have h3 : p ∈ splitSeg buf := (List.drop_sublist _ _).subset h2
  exact not_delim_of_mem_splitSeg h3

/-- Witness for C10 at a concrete buffer and emitted frame. -/
theorem frames_delim_free_witness :
    [1, 2, 3] ∈ (extract_hdlc_packets [126, 1, 2, 3, 126]).1 ∧
    HDLC_DELIM ∉ ([1, 2, 3] : List Nat) :=
  ⟨by decide, frames_delim_free [126, 1, 2, 3, 126] [1, 2, 3] (by decide)⟩

theorem strFindOpt_eq_none_iff {pat s : List Char} :
    strFindOpt pat s = none ↔ ∀ i, pat.isPrefixOf (s.drop i) = false := by
  induction s with
  | nil =>
    by_cases hp : pat.isPrefixOf ([] : List Char) = true
    · constructor
      · intro h
        simp only [strFindOpt, if_pos hp] at h
        exact Option.noConfusion h
      · intro h
        have := h 0
        rw [List.drop_nil, hp] at this
        exact Bool.noConfusion this
    · constructor
      · intro h i
        rw [List.drop_nil]
        cases hq : pat.isPrefixOf ([] : List Char)
        · rfl
        · exact absurd hq hp
      · intro h
        simp only [strFindOpt, if_neg hp]
  | cons c rest ih =>
    by_cases hp : pat.isPrefixOf (c :: rest) = true
    · constructor
      · intro h
        simp only [strFindOpt, if_pos hp] at h
        exact Option.noConfusion h
      · intro h
        have := h 0
        rw [List.drop_zero, hp] at this
        exact Bool.noConfusion this
    · have hpf : pat.isPrefixOf (c :: rest) = false := by
        cases hq : pat.isPrefixOf (c :: rest)
        · rfl
        · exact absurd hq hp
      constructor
      · intro h i
        simp only [strFindOpt, if_neg hp, Option.map_eq_none'] at h
        cases i with
        | zero =>
          rw [List.drop_zero]
          exact hpf
        | succ n =>
          rw [List.drop_succ_cons]
          exact ih.1 h n
      · intro h
        simp only [strFindOpt, if_neg hp, Option.map_eq_none']
        apply ih.2
        intro i
        have := h (i + 1)
        rw [List.drop_succ_cons] at this
        exact this

theorem strFindOpt_spec {pat s : List Char} {i : Nat}
    (h : strFindOpt pat s = some i) :
    pat.isPrefixOf (s.drop i) = true ∧
    ∀ j, j < i → pat.isPrefixOf (s.drop j) = false := by
  induction s generalizing i with
  | nil =>
    simp only [strFindOpt] at h
    by_cases hp : pat.isPrefixOf ([] : List Char) = true
    · rw [if_pos hp] at h
      have hi : i = 0 := (Option.some.inj h).symm
      subst hi
      exact ⟨by simpa using hp, by intro j hj; omega⟩
    · rw [if_neg hp] at h
      exact Option.noConfusion h
  | cons c rest ih =>
    simp only [strFindOpt] at h
    by_cases hp : pat.isPrefixOf (c :: rest) = true
    · rw [if_pos hp] at h
      have hi : i = 0 := (Option.some.inj h).symm
      subst hi
      exact ⟨by simpa using hp, by intro j hj; omega⟩
    · rw [if_neg hp] at h
      cases hq : strFindOpt pat rest with
      | none =>
        rw [hq] at h
        exact Option.noConfusion h
      | some i0 =>
        rw [hq] at h
        simp only [Option.map_some', Option.some.injEq] at h
        subst h
        obtain ⟨h1, h2⟩ := ih hq
        refine ⟨by simpa [List.drop_succ_cons] using h1, ?_⟩
        intro j hj
        cases j with
        | zero =>
          rw [List.drop_zero]
          cases hr : pat.isPrefixOf (c :: rest)
          · rfl
          · exact absurd hr hp
        | succ n =>
          rw [List.drop_succ_cons]
          exact h2 n (by omega)

theorem strFind_pos_iff (s pat : List Char) :
    strFind s pat > 0 ↔
      pat.isPrefixOf s = false ∧ ∃ i, pat.isPrefixOf (s.drop i) = true := by
  unfold strFind
  cases hq : strFindOpt pat s with
  | none =>
    dsimp only
    constructor
    · intro h
      norm_num at h
    · rintro ⟨h1, i, h2⟩
      have := strFindOpt_eq_none_iff.1 hq i
      rw [this] at h2
      exact Bool.noConfusion h2
  | some i =>
    dsimp only
    obtain ⟨h1, h2⟩ := strFindOpt_spec hq
    constructor
    · intro hgt
      have hipos : 0 < i := by omega
      refine ⟨?_, ⟨i, h1⟩⟩
      have := h2 0 hipos
      rw [List.drop_zero] at this
      exact this
    · rintro ⟨hp0, -⟩
      have hne : i ≠ 0 := by
        intro hc
        subst hc
        rw [List.drop_zero] at h1
        rw [h1] at hp0
        exact Bool.noConfusion hp0
      have : 0 < i := Nat.pos_of_ne_zero hne
      omega

/-- C6 counterexample: the name a.gz.qmdl does not end with '.gz', yet
FileIO._open_file selects gzip for it because find('.gz') is positive; the
suffix rule of the claim and the substring rule of the code disagree. -/
theorem suffix_rule_counterexample :
    open_file_mode ['a', '.', 'g', 'z', '.', 'q', 'm', 'd', 'l'] =
      OpenMode.gzipMode ∧
    gzExt.isSuffixOf ['a', '.', 'g', 'z', '.', 'q', 'm', 'd', 'l'] = false := by
  decide

/-- C6 amended: decompression mode follows Python str.find, not a suffix
test: gzip is chosen iff '.gz' occurs somewhere in the name but not as a
prefix at index 0; otherwise bzip2 iff '.bz2' occurs somewhere but not at
index 0; otherwise the file is opened raw. -/
theorem open_mode_characterization (fname : List Char) :
    (open_file_mode fname = OpenMode.gzipMode ↔
      (gzExt.isPrefixOf fname = false ∧
        ∃ i, gzExt.isPrefixOf (fname.drop i) = true)) ∧
    (open_file_mode fname = OpenMode.bz2Mode ↔
      (¬ (gzExt.isPrefixOf fname = false ∧
            ∃ i, gzExt.isPrefixOf (fname.drop i) = true) ∧
        (bz2Ext.isPrefixOf fname = false ∧
          ∃ i, bz2Ext.isPrefixOf (fname.drop i) = true))) ∧
    (open_file_mode fname = OpenMode.rawMode ↔
      (¬ (gzExt.isPrefixOf fname = false ∧
            ∃ i, gzExt.isPrefixOf (fname.drop i) = true) ∧
        ¬ (bz2Ext.isPrefixOf fname = false ∧
            ∃ i, bz2Ext.isPrefixOf (fname.drop i) = true))) := by
  have hgziff := strFind_pos_iff fname gzExt
  have hbziff := strFind_pos_iff fname bz2Ext
  unfold open_file_mode
  by_cases hgz : strFind fname gzExt > 0
  · rw [if_pos hgz]
    refine ⟨iff_of_true rfl (hgziff.1 hgz), ?_, ?_⟩
    · exact iff_of_false (by decide) (fun hc => hc.1 (hgziff.1 hgz))
    · exact iff_of_false (by decide) (fun hc => hc.1 (hgziff.1 hgz))
  · rw [if_neg hgz]
    have hng : ¬ (gzExt.isPrefixOf fname = false ∧
        ∃ i, gzExt.isPrefixOf (fname.drop i) = true) :=
      fun hc => hgz (hgziff.2 hc)
    by_cases hbz : strFind fname bz2Ext > 0
    · rw [if_pos hbz]
      refine ⟨iff_of_false (by decide) hng, ?_, ?_⟩
      · exact iff_of_true rfl ⟨hng, hbziff.1 hbz⟩
      · exact iff_of_false (by decide) (fun hc => hc.2 (hbziff.1 hbz))
    · rw [if_neg hbz]
      have hnb : ¬ (bz2Ext.isPrefixOf fname = false ∧
          ∃ i, bz2Ext.isPrefixOf (fname.drop i) = true) :=
        fun hc => hbz (hbziff.2 hc)
      refine ⟨iff_of_false (by decide) hng, ?_, ?_⟩
      · exact iff_of_false (by decide) (fun hc => hnb hc.2)
      · exact iff_of_true rfl ⟨hng, hnb⟩

theorem open_next_file_stuck (f : List Char) (b : Bool) :
    open_next_file ⟨[], f, b⟩ = ⟨[], f, false⟩ := rfl

theorem fileio_state_at (l : List (List Char)) :
    ∀ k (hk : k < l.length),
      open_next_file^[k] (fileio_init l) =
        ⟨(l.drop (k + 1)).reverse, l.get ⟨k, hk⟩, true⟩ := by
  intro k
  induction k with
  | zero =>
    intro hk
    cases l with
    | nil => simp at hk
    | cons a t =>
      show fileio_init (a :: t) = _
      unfold fileio_init open_next_file
      dsimp only
      rw [List.reverse_cons, List.getLast?_concat]
      dsimp only
      rw [List.dropLast_concat]
      rfl
  | succ k ihk =>
    intro hk
    have hk' : k < l.length := by omega
    rw [Function.iterate_succ_apply', ihk hk']
    unfold open_next_file
    dsimp only
    rw [List.drop_eq_getElem_cons hk]
    rw [List.reverse_cons, List.getLast?_concat]
    dsimp only
    rw [List.dropLast_concat]
    rfl

theorem fileio_exhausted (l : List (List Char)) :
    ∀ k, l.length ≤ k →
      (open_next_file^[k] (fileio_init l)).file_available = false := by
  intro k hk
  cases l with
  | nil =>
    have h0 : fileio_init [] = ⟨[], [], false⟩ := rfl
    rw [h0, Function.iterate_fixed (open_next_file_stuck [] false)]
  | cons a t =>
    obtain ⟨m, rfl⟩ := Nat.exists_eq_add_of_le hk
    rw [Nat.add_comm, Function.iterate_add_apply]
    have hstate := fileio_state_at (a :: t) t.length (by simp)
    have hlen : (a :: t).length = t.length + 1 := rfl
    rw [hlen, Function.iterate_succ_apply', hstate]
    rw [show (a :: t).drop (t.length + 1) = [] from List.drop_length _]
    rw [List.reverse_nil, open_next_file_stuck]
    rw [Function.iterate_fixed (open_next_file_stuck _ false)]

/-- C7: for every supplied path list, the byte source opens the files one at
a time in exactly the order given (the k-th advance opens the k-th path),
and once the list is exhausted every further advance reports the source
permanently unavailable. -/
theorem file_order_and_exhaustion (l : List (List Char)) :
    (∀ k (hk : k < l.length),
      (open_next_file^[k] (fileio_init l)).fname = l.get ⟨k, hk⟩ ∧
      (open_next_file^[k] (fileio_init l)).file_available = true) ∧
    (∀ k, l.length ≤ k →
      (open_next_file^[k] (fileio_init l)).file_available = false) := by
  constructor
  · intro k hk
    rw [fileio_state_at l k hk]
    exact ⟨rfl, rfl⟩
  · exact fileio_exhausted l

/-- Witness for C7 on a two-file list. -/
theorem file_order_and_exhaustion_witness :
    (open_next_file^[0] (fileio_init [['a'], ['b']])).fname = ['a'] ∧
    (open_next_file^[1] (fileio_init [['a'], ['b']])).fname = ['b'] ∧
    (open_next_file^[1] (fileio_init [['a'], ['b']])).file_available = true ∧
    (open_next_file^[2] (fileio_init [['a'], ['b']])).file_available = false := by
  refine ⟨?_, ?_, ?_, ?_⟩
  · exact ((file_order_and_exhaustion [['a'], ['b']]).1 0 (by decide)).1.trans
      (by decide)
  · exact ((file_order_and_exhaustion [['a'], ['b']]).1 1 (by decide)).1.trans
      (by decide)
  · exact ((file_order_and_exhaustion [['a'], ['b']]).1 1 (by decide)).2
  · exact (file_order_and_exhaustion [['a'], ['b']]).2 2 (by decide)

/-- C8 counterexample: a too-small file (size 0, even with a payload that a
read would have produced) and a whole-read failure on a large-enough file
yield identical bridge outcomes, so the two failure modes are not
observably different at the bridge boundary. -/
theorem failure_modes_indistinguishable :
    reader_read_qmdl_file 0 20 (some ['x']) = none ∧
    20 * 1024 * 1024 ≤ 22020096 ∧
    bridge_read_qmdl_file (reader_read_qmdl_file 0 20 (some ['x'])) =
      bridge_read_qmdl_file (reader_read_qmdl_file 22020096 20 none) := by
  refine ⟨by decide, by norm_num, by decide⟩

/-- C8 amended: the bridge returns the same fixed error outcome, the message
'File too small or could not be read', both for a file below the size gate
and for a whole-read failure; only a successful read is distinguishable from
the failure modes. -/
theorem failure_modes_same_outcome (small big : Nat) (payload : List Char)
    (hsmall : small < 20 * 1024 * 1024) (hbig : 20 * 1024 * 1024 ≤ big) :
    bridge_read_qmdl_file (reader_read_qmdl_file small 20 (some payload)) =
      BridgeOutcome.errorMsg fileTooSmallOrUnreadMsg ∧
    bridge_read_qmdl_file (reader_read_qmdl_file big 20 none) =
      BridgeOutcome.errorMsg fileTooSmallOrUnreadMsg ∧
    bridge_read_qmdl_file (reader_read_qmdl_file small 20 (some payload)) =
      bridge_read_qmdl_file (reader_read_qmdl_file big 20 none) := by
  have h1 : reader_read_qmdl_file small 20 (some payload) = none := by
    unfold reader_read_qmdl_file
    rw [if_pos hsmall]
  have h2 : reader_read_qmdl_file big 20 none = none := by
    unfold reader_read_qmdl_file
    rw [if_neg (by omega)]
  rw [h1, h2]
  exact ⟨rfl, rfl, rfl⟩

/-- Witness for C8 at concrete sizes. -/
theorem failure_modes_same_outcome_witness :
    0 < 20 * 1024 * 1024 ∧ 20 * 1024 * 1024 ≤ 22020096 ∧
    bridge_read_qmdl_file (reader_read_qmdl_file 0 20 (some ['x'])) =
      bridge_read_qmdl_file (reader_read_qmdl_file 22020096 20 none) :=
  ⟨by norm_num, by norm_num,
    (failure_modes_same_outcome 0 22020096 ['x'] (by norm_num)
      (by norm_num)).2.2⟩

/-- C9 counterexample: the entry a.Qmdl is a mixed-case variant of .qmdl
(its lowercasing ends with .qmdl) and passes the size gate, yet
list_qmdl_files omits it: only the exact spellings .qmdl and .QMDL are
admitted. -/
theorem mixed_case_extension_skipped :
    qmdlExtLower.isSuffixOf
      ((['a', '.', 'Q', 'm', 'd', 'l'] : List Char).map Char.toLower) = true ∧
    20 * 1024 * 1024 ≤ 22020096 ∧
    list_qmdl_files ['d'] [(['a', '.', 'Q', 'm', 'd', 'l'], 22020096)] 20 = [] := by
  refine ⟨by decide, by norm_num, by decide⟩

/-- C9 amended: the listing returns, as joined paths, exactly the entries
whose name ends with the exact spelling .qmdl or .QMDL (other case variants
are excluded) and whose size meets the gate; an input with distinct names
yields a duplicate-free listing. -/
theorem listing_exact_case_and_gate (directory : List Char)
    (entries : List (List Char × Nat)) (min_size_mb : Nat) :
    (∀ path, path ∈ list_qmdl_files directory entries min_size_mb ↔
      ∃ name size, (name, size) ∈ entries ∧
        path = directory ++ '/' :: name ∧
        (qmdlExtLower.isSuffixOf name = true ∨
          qmdlExtUpper.isSuffixOf name = true) ∧
        min_size_mb * 1024 * 1024 ≤ size) ∧
    ((entries.map Prod.fst).Nodup →
      (list_qmdl_files directory entries min_size_mb).Nodup) := by
  constructor
  · intro path
    unfold list_qmdl_files
    rw [List.mem_map]
    constructor
    · rintro ⟨e, he, rfl⟩
      have hmem := List.mem_of_mem_filter he
      have hcond := List.of_mem_filter he
      simp only [Bool.and_eq_true, Bool.or_eq_true, decide_eq_true_eq] at hcond
      exact ⟨e.1, e.2, hmem, rfl, hcond.1, hcond.2⟩
    · rintro ⟨name, size, hmem, rfl, hext, hsize⟩
      refine ⟨(name, size), ?_, rfl⟩
      apply List.mem_filter.2
      refine ⟨hmem, ?_⟩
      simp only [Bool.and_eq_true, Bool.or_eq_true, decide_eq_true_eq]
      exact ⟨hext, hsize⟩
  · intro hnd
    unfold list_qmdl_files
    have hinj : Function.Injective (fun name => directory ++ '/' :: name) := by
      intro a b hab
      have h := List.append_cancel_left hab
      injection h
    have h1 : ((entries.filter (fun e =>
        (qmdlExtLower.isSuffixOf e.1 || qmdlExtUpper.isSuffixOf e.1) &&
        decide (min_size_mb * 1024 * 1024 ≤ e.2))).map Prod.fst).Nodup :=
      List.Sublist.nodup ((List.filter_sublist entries).map Prod.fst) hnd
    have h2 := h1.map hinj
    rw [List.map_map] at h2
    exact h2

/-- Witness for C9 on a name-distinct entry list. -/
theorem listing_exact_case_and_gate_witness :
    (([(['a', '.', 'q', 'm', 'd', 'l'], 22020096),
        (['b', '.', 'Q', 'M', 'D', 'L'], 22020096)] :
      List (List Char × Nat)).map Prod.fst).Nodup ∧
    (list_qmdl_files ['d']
      [(['a', '.', 'q', 'm', 'd', 'l'], 22020096),
        (['b', '.', 'Q', 'M', 'D', 'L'], 22020096)] 20).Nodup :=
  ⟨by decide,
    (listing_exact_case_and_gate ['d']
      [(['a', '.', 'q', 'm', 'd', 'l'], 22020096),
        (['b', '.', 'Q', 'M', 'D', 'L'], 22020096)] 20).2 (by decide)⟩

end ModiApp
